import Mathlib

/-!
Shallow embedding of the slot-ledger core of the FlowState 15-minute logger
(src/services/db.ts, src/utils/timeUtils.ts, src/components/StatsView.tsx,
src/App.tsx), together with proofs about the embedded operations.

Modelling conventions:
* JS epoch-millisecond timestamps are `Int`; local wall-clock arithmetic is
  plain millisecond arithmetic (`addMinutes`/`setHours` in timeUtils.ts are
  pure `getTime` arithmetic on the base instant).
* JS `number` scores and percentages are `ℚ` (exact arithmetic reading).
* A JS object used as a string-keyed record is an insertion-ordered
  association list (`List (String × β)` with `setKey`/`getKey`).
* `Array.prototype.sort` (stable in ES2019+) is a stable insertion sort
  parameterised by the boolean relation `le a b` that holds exactly when the
  JS comparator returns a non-positive value on `(a, b)`.
* Optional / possibly-absent JS values are `Option`; string falsiness is
  equality with `""`.
-/

namespace FlowState

/-- LogEntry from src/types.ts: `id`, epoch-ms `timestamp`, free-text
`description`, optional `category`. -/
structure LogEntry where
  id : String
  timestamp : Int
  description : String
  category : Option String
  deriving Repr, DecidableEq

/-- Category from src/types.ts. -/
structure Category where
  id : String
  name : String
  color : String
  deriving Repr, DecidableEq

/-! ### JS string primitives

`String.prototype.trim`, `String.prototype.toLowerCase` and
`String.prototype.split` modelled structurally on the character list of the
string (ASCII reading of case folding). -/

/-- JS `s.trim()`: drop leading and trailing whitespace. -/
def jsTrim (s : String) : String :=
  String.mk
    (((s.toList.dropWhile Char.isWhitespace).reverse.dropWhile Char.isWhitespace).reverse)

/-- JS `s.toLowerCase()`. -/
def jsToLower (s : String) : String :=
  String.mk (s.toList.map Char.toLower)

/-- JS `text.split(sep)` for a one-character separator, on character lists:
always returns at least one (possibly empty) group. -/
def splitOnChar (sep : Char) : List Char → List (List Char)
  | [] => [[]]
  | c :: rest =>
    match splitOnChar sep rest with
    | [] => [[]]
    | g :: gs => if c = sep then [] :: g :: gs else (c :: g) :: gs

/-! ### Insertion-ordered string-keyed records (JS object model) -/

/-- Lookup of `m[k]` in a string-keyed JS object modelled as an
insertion-ordered association list. -/
def getKey {β : Type} (k : String) : List (String × β) → Option β
  | [] => none
  | p :: rest => if p.1 = k then some p.2 else getKey k rest

/-- Assignment `m[k] = v` in a string-keyed JS object: overwrite in place if
the key exists, otherwise append (insertion order). -/
def setKey {β : Type} (k : String) (v : β) : List (String × β) → List (String × β)
  | [] => [(k, v)]
  | p :: rest => if p.1 = k then (k, v) :: rest else p :: setKey k v rest

/-- Truthiness of `m[k]` for object-valued entries. -/
def hasKey {β : Type} (k : String) (m : List (String × β)) : Bool :=
  (getKey k m).isSome

/-! ### Stable sort (Array.prototype.sort with a comparator)

`le a b = true` models "comparator a b ≤ 0", i.e. `a` may stay before `b`.
For a consistent comparator the unique stable result is computed by this
insertion sort, which moves each element forward past exactly the elements
it must precede. -/

/-- Insert `e` in front of the first element `a` with `le e a`. -/
def insertStable {α : Type} (le : α → α → Bool) (e : α) : List α → List α
  | [] => [e]
  | a :: l => if le e a then e :: a :: l else a :: insertStable le e l

/-- Stable sort by the comparator-derived relation `le`. -/
def sortStable {α : Type} (le : α → α → Bool) : List α → List α
  | [] => []
  | a :: l => insertStable le a (sortStable le l)

/-! ### Entry store: db.saveLog (src/services/db.ts lines 36-51) -/

/-- The comparator `(a, b) => a.timestamp - b.timestamp` of db.saveLog:
`a` may stay before `b` iff `a.timestamp ≤ b.timestamp`. -/
def tsLE (a b : LogEntry) : Bool :=
  a.timestamp ≤ b.timestamp

/-- db.saveLog: find the first entry with the same timestamp and replace it
in place (`findIndex` / `newLogs[existingIndex] = entry`), otherwise append;
then stable-sort ascending by timestamp and persist. Returns the persisted
collection. -/
def saveLog (entry : LogEntry) (logs : List LogEntry) : List LogEntry :=
  let newLogs :=
    match logs.findIdx? (fun l => l.timestamp = entry.timestamp) with
    | some i => logs.set i entry
    | none => logs ++ [entry]
  sortStable tsLE newLogs

/-! ### Slot grid: getDaySlots (src/utils/timeUtils.ts lines 85-103) -/

def msPerMinute : Int := 60000

def msPerHour : Int := 3600000

/-- getDaySlots: `dayStart` is `startOfDay(date).getTime()`; the start instant
is `setHours(dayStart, startHour)`, i.e. `dayStart + startHour` hours; the
duration in hours gets 24 added when non-positive (overnight wrap); one slot
every 15 minutes (`addMinutes(startTime, i * 15)`), `durationHours * 4` slots
(the JS `for` loop runs zero times when `totalSlots` is negative). -/
def getDaySlots (dayStart : Int) (startHour endHour : Int) : List Int :=
  let startTime := dayStart + startHour * msPerHour
  let durationHours :=
    if endHour - startHour ≤ 0 then endHour - startHour + 24 else endHour - startHour
  let totalSlots := durationHours * 4
  (List.range totalSlots.toNat).map (fun i : Nat => startTime + (i : Int) * 15 * msPerMinute)

/-! ### Suggestion ranker: db.getWeightedSuggestions (src/services/db.ts lines 71-107) -/

/-- The recency multiplier of getWeightedSuggestions, as the nested
`if`/`else if` chain of the source computes it from `ageHours`. -/
def suggestionMultiplier (ageHours : ℚ) : ℚ :=
  if ageHours ≤ 48 then 1
  else if ageHours ≤ 72 then 8 / 10
  else if ageHours ≤ 168 then 2 / 10
  else if ageHours ≤ 336 then 1 / 10
  else if 4320 < ageHours then 0
  else 1 / 10

/-- One iteration of the `logs.forEach` scoring loop: skip entries with a
falsy or whitespace-only description, otherwise add
`(scores[desc] || 0) + 1 * multiplier` under the trimmed description. -/
def scoreStep (now : Int) (scores : List (String × ℚ)) (log : LogEntry) :
    List (String × ℚ) :=
  if log.description = "" then scores
  else
    let desc := jsTrim log.description
    if desc = "" then scores
    else
      let ageHours : ℚ := ((now - log.timestamp : Int) : ℚ) / 3600000
      setKey desc ((getKey desc scores).getD 0 + 1 * suggestionMultiplier ageHours) scores

/-- The `scores` record accumulated by getWeightedSuggestions. -/
def suggestionScores (logs : List LogEntry) (now : Int) : List (String × ℚ) :=
  logs.foldl (scoreStep now) []

/-- The comparator `([, a], [, b]) => scoreB - scoreA`: a pair may stay
before another iff its score is at least as large (descending). -/
def scoreLE (a b : String × ℚ) : Bool :=
  b.2 ≤ a.2

/-- db.getWeightedSuggestions: score, sort `Object.entries(scores)` descending
by score (stable), keep the description strings, take the first `limit`
(the source defaults `limit` to 8). -/
def getWeightedSuggestions (logs : List LogEntry) (now : Int) (limit : Nat) :
    List String :=
  ((sortStable scoreLE (suggestionScores logs now)).map Prod.fst).take limit

/-! ### Auto-categorizer: db.findLastCategoryForText (src/services/db.ts lines 165-183) -/

/-- Milliseconds in the 30-day lookback window. -/
def thirtyDaysMs : Int := 30 * 24 * 60 * 60 * 1000

/-- Truthiness of an optional category string. -/
def categoryTruthy : Option String → Bool
  | some c => c ≠ ""
  | none => false

/-- The `for (const log of logs)` loop over the reversed log list: break once
`now - log.timestamp > thirtyDays`; return `log.category` for the first entry
with truthy description, `description.toLowerCase() === cleanText`, and
truthy category. -/
def lookback (cleanText : String) (now : Int) : List LogEntry → Option String
  | [] => none
  | log :: rest =>
    if thirtyDaysMs < now - log.timestamp then none
    else if log.description ≠ "" ∧ jsToLower log.description = cleanText ∧
        categoryTruthy log.category then log.category
    else lookback cleanText now rest

/-- db.findLastCategoryForText: empty/whitespace input yields none; otherwise
scan a reversed copy of the stored logs with the 30-day early exit. -/
def findLastCategoryForText (text : String) (logs : List LogEntry) (now : Int) :
    Option String :=
  if jsTrim text = "" then none
  else lookback (jsToLower (jsTrim text)) now logs.reverse

/-! ### Backup codec: db.exportData / db.restoreData (src/services/db.ts lines 139-162)
and db.getSettings (lines 109-123) -/

/-- AppSettings from src/types.ts (categoryColors as an association list,
`muteUntil` optional). -/
structure AppSettings where
  startHour : Int
  endHour : Int
  notificationsEnabled : Bool
  visualFlashEnabled : Bool
  soundId : String
  muteUntil : Option Int
  categoryColors : List (String × String)
  categories : List Category
  deriving Repr, DecidableEq

/-- A persisted settings document, every field possibly absent
(`Partial<AppSettings>` as read back from storage). -/
structure PartialSettings where
  startHour : Option Int
  endHour : Option Int
  notificationsEnabled : Option Bool
  visualFlashEnabled : Option Bool
  soundId : Option String
  muteUntil : Option Int
  categoryColors : Option (List (String × String))
  categories : Option (List Category)
  deriving Repr, DecidableEq

/-- DEFAULT_CATEGORIES from src/services/db.ts. -/
def defaultCategories : List Category :=
  [⟨"work", "Work", "#3B82F6"⟩,
   ⟨"deep-work", "Deep Work", "#8B5CF6"⟩,
   ⟨"meetings", "Meetings", "#EF4444"⟩,
   ⟨"errands", "Errands", "#10B981"⟩,
   ⟨"misc", "Misc", "#6B7280"⟩]

/-- db.getSettings: merge the persisted partial settings with the defaults
field by field (`saved.x ?? CONST_DEFAULT.x`); `muteUntil` passes through;
`categoryColors` defaults to `{}`; a missing or empty category list falls
back to DEFAULT_CATEGORIES. `defaults` stands for `CONST_DEFAULT` from
src/constants.ts, whose values the proofs never rely on. -/
def getSettings (saved : PartialSettings) (defaults : AppSettings) : AppSettings :=
  { startHour := saved.startHour.getD defaults.startHour
    endHour := saved.endHour.getD defaults.endHour
    notificationsEnabled := saved.notificationsEnabled.getD defaults.notificationsEnabled
    visualFlashEnabled := saved.visualFlashEnabled.getD defaults.visualFlashEnabled
    soundId := saved.soundId.getD defaults.soundId
    muteUntil := saved.muteUntil
    categoryColors := saved.categoryColors.getD []
    categories :=
      match saved.categories with
      | some cs => if cs.length > 0 then cs else defaultCategories
      | none => defaultCategories }

/-- The JSON round trip a stored full AppSettings object survives: every field
reads back present (`undefined` `muteUntil` keys are dropped and read back
absent, which `Option` already captures). -/
def toPartial (s : AppSettings) : PartialSettings :=
  { startHour := some s.startHour
    endHour := some s.endHour
    notificationsEnabled := some s.notificationsEnabled
    visualFlashEnabled := some s.visualFlashEnabled
    soundId := some s.soundId
    muteUntil := s.muteUntil
    categoryColors := some s.categoryColors
    categories := some s.categories }

/-- The persisted state the backup codec touches: the LOGS, SETTINGS and TAGS
storage keys. -/
structure Store where
  logs : List LogEntry
  settingsRaw : PartialSettings
  tags : List String
  deriving Repr, DecidableEq

/-- A parsed backup document: `{ logs, settings, tags }`, each field possibly
absent or null (falsy). -/
structure BackupDoc where
  logs : Option (List LogEntry)
  settings : Option PartialSettings
  tags : Option (List String)
  deriving Repr, DecidableEq

/-- db.exportData: bundle the current logs, the merged settings and the tags
into one document (all three fields present in the serialized JSON). -/
def exportData (s : Store) (defaults : AppSettings) : BackupDoc :=
  { logs := some s.logs
    settings := some (toPartial (getSettings s.settingsRaw defaults))
    tags := some s.tags }

/-- db.restoreData on a parsed document: throw (report failure, write
nothing) when `data.logs` is falsy; otherwise write the logs, and write
settings and tags only when present. Returns the success flag and the
resulting persisted state. -/
def restoreData (doc : BackupDoc) (s : Store) : Bool × Store :=
  match doc.logs with
  | none => (false, s)
  | some ls =>
    (true,
      { logs := ls
        settingsRaw := doc.settings.getD s.settingsRaw
        tags := doc.tags.getD s.tags })

/-! ### Aggregator: the `stats` useMemo of src/components/StatsView.tsx (lines 20-96) -/

/-- Accumulating bucket state: minutes, per-description minutes, color. -/
structure BucketAcc where
  mins : Nat
  tasks : List (String × Nat)
  color : String
  deriving Repr, DecidableEq

/-- One output bucket of the stats data. -/
structure BucketOut where
  name : String
  value : Nat
  percentage : ℚ
  tasks : List (String × Nat)
  color : String
  deriving Repr, DecidableEq

/-- DEFAULT_COLORS from src/components/StatsView.tsx. -/
def defaultColors : List String :=
  ["#4F46E5", "#10B981", "#F59E0B", "#EF4444", "#EC4899", "#8B5CF6", "#6366F1", "#14B8A6"]

/-- The initial `catGroups` record: one zeroed bucket per configured category
name (later duplicates overwrite), then the explicit Uncategorized bucket. -/
def initGroups (categories : List Category) : List (String × BucketAcc) :=
  setKey "Uncategorized" ⟨0, [], "#9CA3AF"⟩
    (categories.foldl (fun m cat => setKey cat.name ⟨0, [], cat.color⟩ m) [])

/-- The routing target of one filtered entry: `rawCat` must be truthy and a
key of `catGroups`, otherwise the entry lands in Uncategorized. -/
def routeTarget (groups : List (String × BucketAcc)) (log : LogEntry) : String :=
  match log.category with
  | some rawCat => if rawCat ≠ "" ∧ hasKey rawCat groups then rawCat else "Uncategorized"
  | none => "Uncategorized"

/-- One iteration of the `filtered.forEach` loop: 15 minutes to the target
bucket, 15 minutes to the entry's description inside that bucket (falsy
descriptions shown as "(No description)"). The target is always a key of
`groups`; the fallthrough keeps the record unchanged. -/
def routeStep (groups : List (String × BucketAcc)) (log : LogEntry) :
    List (String × BucketAcc) :=
  let target := routeTarget groups log
  let desc := if log.description = "" then "(No description)" else log.description
  match getKey target groups with
  | some g =>
    setKey target
      ⟨g.mins + 15, setKey desc ((getKey desc g.tasks).getD 0 + 15) g.tasks, g.color⟩
      groups
  | none => groups

/-- The single `filtered.forEach` loop accumulating `catGroups` and
`totalMinutes` together. -/
def aggFold (filtered : List LogEntry) (categories : List Category) :
    List (String × BucketAcc) × Nat :=
  filtered.foldl (fun acc log => (routeStep acc.1 log, acc.2 + 15))
    (initGroups categories, 0)

/-- The comparator `(a, b) => b.mins - a.mins` on task breakdowns. -/
def taskLE (a b : String × Nat) : Bool :=
  b.2 ≤ a.2

/-- The output comparator of the stats data: Uncategorized always last,
everything else descending by minutes. `bucketLE a b` holds exactly when the
comparator returns a non-positive value on `(a, b)`. -/
def bucketLE (a b : BucketOut) : Bool :=
  if a.name = "Uncategorized" then false
  else if b.name = "Uncategorized" then true
  else b.value ≤ a.value

/-- `data.forEach((item, idx) => ...)` starting at index `idx`: give any
bucket still lacking a color the palette color at
`idx % DEFAULT_COLORS.length`. -/
def assignFallbackColorsFrom (idx : Nat) : List BucketOut → List BucketOut
  | [] => []
  | b :: rest =>
    (if b.color = "" then
      { b with color := (defaultColors.get? (idx % defaultColors.length)).getD "" }
    else b) :: assignFallbackColorsFrom (idx + 1) rest

/-- The whole fallback-color pass, from index 0. -/
def assignFallbackColors (data : List BucketOut) : List BucketOut :=
  assignFallbackColorsFrom 0 data

/-- The range filter `isWithinInterval` (inclusive on both ends). -/
def inRange (rangeStart rangeEnd : Int) (log : LogEntry) : Bool :=
  rangeStart ≤ log.timestamp ∧ log.timestamp ≤ rangeEnd

/-- The `stats` computation of StatsView for one date range: filter to the
range, accumulate buckets and total, drop zero-minute buckets, compute
percentages (0 when `totalMinutes` is 0), sort task breakdowns descending,
pick configured or legacy colors (`group.color || categoryColors[name]`),
sort buckets by `bucketLE`, then fill fallback palette colors. -/
def aggregate (logs : List LogEntry) (rangeStart rangeEnd : Int)
    (categories : List Category) (categoryColors : List (String × String)) :
    List BucketOut × Nat :=
  let filtered := logs.filter (inRange rangeStart rangeEnd)
  let folded := aggFold filtered categories
  let totalMinutes := folded.2
  let data :=
    (folded.1.filter (fun p => 0 < p.2.mins)).map (fun p =>
      ({ name := p.1,
         value := p.2.mins,
         percentage :=
           if 0 < totalMinutes then ((p.2.mins : ℚ) / (totalMinutes : ℚ)) * 100 else 0,
         tasks := sortStable taskLE p.2.tasks,
         color :=
           if p.2.color ≠ "" then p.2.color else (getKey p.1 categoryColors).getD "" } :
        BucketOut))
  (assignFallbackColors (sortStable bucketLE data), totalMinutes)

/-! ### Import parser: parseImportText (src/utils/timeUtils.ts lines 139-173)
and the import flow handleImportText (src/App.tsx lines 169-179) -/

/-- Digit run to a JS `Number` value. -/
def digitsToNat (ds : List Char) : Nat :=
  ds.foldl (fun n c => 10 * n + (c.toNat - Char.toNat '0')) 0

/-- JS `\w` word characters. -/
def isWordChar (c : Char) : Bool :=
  c.isAlphanum || c = '_'

/-- The first match of `/#(\w+)/` in the content: scan for a `#` followed by
at least one word character and capture the maximal word-character run. -/
def findTag : List Char → Option String
  | [] => none
  | c :: rest =>
    if c = '#' then
      let word := rest.takeWhile isWordChar
      if word.isEmpty then findTag rest else some (String.mk word)
    else findTag rest

/-- Match `/^(\d{1,2}:\d{2})\s+(.+)$/` against a trimmed non-empty line and
return `(hours, minutes, content)`: one or two leading digits, a colon,
exactly two digits, at least one whitespace character, then a non-empty rest
(the line is trimmed, so the greedy `\s+` leaves the rest intact). -/
def matchTimeLine (trimmed : String) : Option (Nat × Nat × String) :=
  let cs := trimmed.toList
  let hs := cs.takeWhile Char.isDigit
  let afterH := cs.dropWhile Char.isDigit
  if hs.length = 0 ∨ 2 < hs.length then none
  else
    match afterH with
    | c :: afterColon =>
      if c = ':' then
        let ms := afterColon.takeWhile Char.isDigit
        let afterM := afterColon.dropWhile Char.isDigit
        if ms.length = 2 then
          let ws := afterM.takeWhile Char.isWhitespace
          let content := afterM.dropWhile Char.isWhitespace
          if ws.length = 0 ∨ content.length = 0 then none
          else some (digitsToNat hs, digitsToNat ms, String.mk content)
        else none
      else none
    | [] => none

/-- The parsed shape of one import line. -/
structure ParsedLine where
  timestamp : Int
  description : String
  category : Option String
  deriving Repr, DecidableEq

/-- parseImportText: split on newlines, skip blank lines and lines that do not
match the `HH:mm <description>` pattern; the timestamp is
`setHours(setMinutes(startOfDay(baseDate), minutes), hours)`, i.e. plain
hour/minute arithmetic on the day start; an inline `#word` token becomes the
category. `dayStart` is `startOfDay(baseDate).getTime()`. -/
def parseImportText (text : String) (dayStart : Int) : List ParsedLine :=
  ((splitOnChar '\n' text.toList).map String.mk).filterMap (fun line =>
    let trimmed := jsTrim line
    if trimmed = "" then none
    else
      match matchTimeLine trimmed with
      | some (hours, minutes, content) =>
        some
          { timestamp := dayStart + (hours : Int) * msPerHour + (minutes : Int) * msPerMinute
            description := content
            category := findTag content.toList }
      | none => none)

/-- handleImportText: every parsed line is saved into the store through
db.saveLog with a fresh id. -/
def importText (text : String) (dayStart : Int) (ids : List String)
    (logs : List LogEntry) : List LogEntry :=
  ((parseImportText text dayStart).zip ids).foldl
    (fun acc p => saveLog ⟨p.2, p.1.timestamp, p.1.description, p.1.category⟩ acc) logs

/-! ### Claim-side (specification-worded) definitions, for comparison with the
source-derived ones above -/

/-- The multiplier table exactly as the claim states it, with explicit
disjoint `ageHours` ranges. -/
def specTierMultiplier (ageHours : ℚ) : ℚ :=
  if ageHours ≤ 48 then 1
  else if 48 < ageHours ∧ ageHours ≤ 72 then 8 / 10
  else if 72 < ageHours ∧ ageHours ≤ 168 then 2 / 10
  else if 168 < ageHours ∧ ageHours ≤ 336 then 1 / 10
  else if 336 < ageHours ∧ ageHours ≤ 4320 then 1 / 10
  else 0

/-- The amended routing rule: an entry lands in the bucket named by its
category when that name is non-empty and currently configured, and in
Uncategorized otherwise. -/
def specRouteName (categories : List Category) (log : LogEntry) : String :=
  match log.category with
  | some c =>
    if c ≠ "" ∧ c ∈ categories.map Category.name then c else "Uncategorized"
  | none => "Uncategorized"

/-- A replace-first-matching-timestamp view of the `findIndex` / in-place
assignment step of db.saveLog, convenient for induction; proved equal to the
indexed form below. -/
def replaceFirstByTs (e : LogEntry) : List LogEntry → List LogEntry
  | [] => [e]
  | l :: rest =>
    if l.timestamp = e.timestamp then e :: rest else l :: replaceFirstByTs e rest

/-! ## Lemmas about the JS object model -/

theorem getKey_setKey_self {β : Type} (k : String) (v : β) (m : List (String × β)) :
    getKey k (setKey k v m) = some v := by
  induction m with
  | nil => simp [setKey, getKey]
  | cons p rest ih =>
    by_cases h : p.1 = k
    · simp [setKey, getKey, h]
    · simp [setKey, getKey, h, ih]

theorem getKey_setKey_ne {β : Type} {k k' : String} (h : k' ≠ k) (v : β)
    (m : List (String × β)) : getKey k' (setKey k v m) = getKey k' m := by
  have hne : ¬(k = k') := fun hk => h hk.symm
  induction m with
  | nil => simp [setKey, getKey, hne]
  | cons p rest ih =>
    by_cases hp : p.1 = k
    · subst hp
      simp [setKey, getKey, hne]
    · simp only [setKey, if_neg hp, getKey]
      by_cases hp' : p.1 = k'
      · simp [hp']
      · simp [hp', ih]

theorem keys_setKey_of_mem {β : Type} {k : String} {m : List (String × β)}
    (h : k ∈ m.map Prod.fst) (v : β) :
    (setKey k v m).map Prod.fst = m.map Prod.fst := by
  induction m with
  | nil => simp at h
  | cons p rest ih =>
    by_cases hp : p.1 = k
    · simp [setKey, hp]
    · simp only [List.map_cons, List.mem_cons] at h
      rcases h with h | h
      · exact absurd h.symm hp
      · simp [setKey, hp, ih h]

theorem keys_setKey_subset {β : Type} (k : String) (v : β) (m : List (String × β))
    {a : String} (ha : a ∈ (setKey k v m).map Prod.fst) :
    a ∈ m.map Prod.fst ∨ a = k := by
  induction m with
  | nil => simpa [setKey] using ha
  | cons p rest ih =>
    by_cases hp : p.1 = k
    · simp only [setKey, if_pos hp, List.map_cons, List.mem_cons] at ha ⊢
      rcases ha with ha | ha
      · exact Or.inr ha
      · exact Or.inl (Or.inr ha)
    · simp only [setKey, if_neg hp, List.map_cons, List.mem_cons] at ha ⊢
      rcases ha with ha | ha
      · exact Or.inl (Or.inl ha)
      · rcases ih ha with h' | h'
        · exact Or.inl (Or.inr h')
        · exact Or.inr h'

theorem mem_keys_setKey_self {β : Type} (k : String) (v : β) (m : List (String × β)) :
    k ∈ (setKey k v m).map Prod.fst := by
  induction m with
  | nil => simp [setKey]
  | cons p rest ih =>
    by_cases hp : p.1 = k
    · simp [setKey, hp]
    · simp only [setKey, if_neg hp, List.map_cons, List.mem_cons]
      exact Or.inr ih

theorem mem_keys_setKey_of_mem {β : Type} {a : String} {m : List (String × β)}
    (h : a ∈ m.map Prod.fst) (k : String) (v : β) :
    a ∈ (setKey k v m).map Prod.fst := by
  induction m with
  | nil => simp at h
  | cons p rest ih =>
    simp only [List.map_cons, List.mem_cons] at h
    by_cases hp : p.1 = k
    · simp only [setKey, if_pos hp, List.map_cons, List.mem_cons]
      rcases h with h | h
      · exact Or.inl (hp ▸ h)
      · exact Or.inr h
    · simp only [setKey, if_neg hp, List.map_cons, List.mem_cons]
      rcases h with h | h
      · exact Or.inl h
      · exact Or.inr (ih h)

theorem hasKey_iff_mem_keys {β : Type} (k : String) (m : List (String × β)) :
    hasKey k m = true ↔ k ∈ m.map Prod.fst := by
  induction m with
  | nil => simp [hasKey, getKey]
  | cons p rest ih =>
    by_cases hp : p.1 = k
    · simp [hasKey, getKey, hp]
    · have hp' : ¬(k = p.1) := fun h' => hp h'.symm
      simp only [hasKey, getKey, if_neg hp, List.map_cons, List.mem_cons]
      rw [hasKey] at ih
      rw [ih]
      exact ⟨fun h' => Or.inr h', fun h' => h'.resolve_left hp'⟩

theorem nodupKeys_setKey {β : Type} {m : List (String × β)}
    (h : (m.map Prod.fst).Nodup) (k : String) (v : β) :
    ((setKey k v m).map Prod.fst).Nodup := by
  induction m with
  | nil => simp [setKey]
  | cons p rest ih =>
    simp only [List.map_cons, List.nodup_cons] at h
    by_cases hp : p.1 = k
    · subst hp
      have hset : setKey p.1 v (p :: rest) = (p.1, v) :: rest := by
        simp [setKey]
      rw [hset]
      simp only [List.map_cons, List.nodup_cons]
      exact h
    · simp only [setKey, if_neg hp, List.map_cons, List.nodup_cons]
      refine ⟨fun hmem => ?_, ih h.2⟩
      rcases keys_setKey_subset k v rest hmem with hr | hr
      · exact h.1 hr
      · exact hp hr

theorem getKey_eq_some_of_mem {β : Type} {k : String} {v : β} {m : List (String × β)}
    (hnd : (m.map Prod.fst).Nodup) (hm : (k, v) ∈ m) : getKey k m = some v := by
  induction m with
  | nil => simp at hm
  | cons p rest ih =>
    simp only [List.map_cons, List.nodup_cons] at hnd
    rcases List.mem_cons.mp hm with hm' | hm'
    · rw [← hm']
      simp [getKey]
    · have hk : p.1 ≠ k := by
        intro hk
        exact hnd.1 (hk ▸ (List.mem_map.mpr ⟨(k, v), hm', rfl⟩))
      simp [getKey, hk, ih hnd.2 hm']

theorem mem_of_getKey_eq_some {β : Type} {k : String} {v : β} {m : List (String × β)}
    (h : getKey k m = some v) : (k, v) ∈ m := by
  induction m with
  | nil => simp [getKey] at h
  | cons p rest ih =>
    by_cases hp : p.1 = k
    · simp only [getKey, if_pos hp] at h
      have : p = (k, v) := by
        obtain ⟨p1, p2⟩ := p
        simp only at hp
        cases h
        rw [hp]
      exact this ▸ List.mem_cons_self p rest
    · simp only [getKey, if_neg hp] at h
      exact List.mem_cons.mpr (Or.inr (ih h))

/-! ## Lemmas about the stable sort -/

theorem insertStable_perm {α : Type} (le : α → α → Bool) (e : α) (l : List α) :
    (insertStable le e l).Perm (e :: l) := by
  induction l with
  | nil => simp [insertStable]
  | cons a l ih =>
    by_cases h : le e a = true
    · simp [insertStable, h]
    · simp only [insertStable, if_neg h]
      exact ((ih.cons a).trans (List.Perm.swap e a l))

theorem sortStable_perm {α : Type} (le : α → α → Bool) (l : List α) :
    (sortStable le l).Perm l := by
  induction l with
  | nil => simp [sortStable]
  | cons a l ih =>
    exact (insertStable_perm le a (sortStable le l)).trans (ih.cons a)

theorem pairwise_insertStable {α : Type} (le : α → α → Bool)
    (htrans : ∀ a b c, le a b = true → le b c = true → le a c = true)
    {e : α} {l : List α}
    (htot : ∀ a ∈ l, le e a = true ∨ le a e = true)
    (h : l.Pairwise (fun a b => le a b = true)) :
    (insertStable le e l).Pairwise (fun a b => le a b = true) := by
  induction l with
  | nil => simp [insertStable]
  | cons a l ih =>
    by_cases hle : le e a = true
    · simp only [insertStable, if_pos hle]
      refine List.Pairwise.cons (fun b hb => ?_) h
      rcases List.mem_cons.mp hb with hb | hb
      · exact hb ▸ hle
      · exact htrans e a b hle (List.rel_of_pairwise_cons h hb)
    · simp only [insertStable, if_neg hle]
      have hae : le a e = true := by
        rcases htot a (List.mem_cons_self a l) with h' | h'
        · exact absurd h' hle
        · exact h'
      refine List.Pairwise.cons (fun b hb => ?_) ?_
      · rcases (insertStable_perm le e l).mem_iff.mp hb with hb
        rcases List.mem_cons.mp hb with hb | hb
        · exact hb ▸ hae
        · exact List.rel_of_pairwise_cons h hb
      · exact ih (fun b hb => htot b (List.mem_cons_of_mem a hb)) h.tail

theorem pairwise_sortStable {α : Type} (le : α → α → Bool)
    (htrans : ∀ a b c, le a b = true → le b c = true → le a c = true)
    {l : List α}
    (htot : l.Pairwise (fun a b => le a b = true ∨ le b a = true)) :
    (sortStable le l).Pairwise (fun a b => le a b = true) := by
  induction l with
  | nil => simp [sortStable]
  | cons a l ih =>
    refine pairwise_insertStable le htrans (fun b hb => ?_) (ih htot.tail)
    exact List.rel_of_pairwise_cons htot ((sortStable_perm le l).mem_iff.mp hb)

theorem pairwise_totalizes {α : Type} (le : α → α → Bool)
    (h : ∀ a b : α, le a b = true ∨ le b a = true) (l : List α) :
    l.Pairwise (fun a b => le a b = true ∨ le b a = true) := by
  induction l with
  | nil => exact List.Pairwise.nil
  | cons a l ih => exact List.Pairwise.cons (fun b _ => h a b) ih

/-! ## Lemmas about db.saveLog -/

theorem upsert_eq_replaceFirst (e : LogEntry) (logs : List LogEntry) :
    (match logs.findIdx? (fun l => l.timestamp = e.timestamp) with
      | some i => logs.set i e
      | none => logs ++ [e]) = replaceFirstByTs e logs := by
  induction logs with
  | nil => simp [replaceFirstByTs]
  | cons a l ih =>
    by_cases ha : a.timestamp = e.timestamp
    · simp [List.findIdx?_cons, ha, replaceFirstByTs]
    · rw [List.findIdx?_cons]
      simp only [ha, decide_False, if_false, List.findIdx?_succ]
      rw [replaceFirstByTs]
      simp only [if_neg ha]
      rcases h : l.findIdx? (fun l => decide (l.timestamp = e.timestamp)) with _ | i
      · rw [h] at ih
        rw [h]
        simpa using congrArg (List.cons a) ih
      · rw [h] at ih
        rw [h]
        simpa using congrArg (List.cons a) ih

theorem saveLog_eq_sort_replaceFirst (e : LogEntry) (logs : List LogEntry) :
    saveLog e logs = sortStable tsLE (replaceFirstByTs e logs) := by
  rw [saveLog, ← upsert_eq_replaceFirst e logs]

theorem self_mem_replaceFirst (e : LogEntry) (logs : List LogEntry) :
    e ∈ replaceFirstByTs e logs := by
  induction logs with
  | nil => simp [replaceFirstByTs]
  | cons a l ih =>
    by_cases ha : a.timestamp = e.timestamp
    · simp [replaceFirstByTs, ha]
    · simp only [replaceFirstByTs, if_neg ha]
      exact List.mem_cons_of_mem a ih

theorem replaceFirst_of_no_match (e : LogEntry) {logs : List LogEntry}
    (h : ∀ l ∈ logs, l.timestamp ≠ e.timestamp) :
    replaceFirstByTs e logs = logs ++ [e] := by
  induction logs with
  | nil => simp [replaceFirstByTs]
  | cons a l ih =>
    have ha : a.timestamp ≠ e.timestamp := h a (List.mem_cons_self a l)
    simp only [replaceFirstByTs, if_neg ha, List.cons_append]
    rw [ih (fun x hx => h x (List.mem_cons_of_mem a hx))]

theorem length_replaceFirst_of_match (e : LogEntry) {logs : List LogEntry}
    (h : ∃ l ∈ logs, l.timestamp = e.timestamp) :
    (replaceFirstByTs e logs).length = logs.length := by
  induction logs with
  | nil => simp at h
  | cons a l ih =>
    by_cases ha : a.timestamp = e.timestamp
    · simp [replaceFirstByTs, ha]
    · have h' : ∃ x ∈ l, x.timestamp = e.timestamp := by
        rcases h with ⟨x, hx, hxe⟩
        rcases List.mem_cons.mp hx with hx | hx
        · exact absurd (hx ▸ hxe) ha
        · exact ⟨x, hx, hxe⟩
      simp [replaceFirstByTs, ha, ih h']

theorem map_ts_replaceFirst_of_match (e : LogEntry) {logs : List LogEntry}
    (h : ∃ l ∈ logs, l.timestamp = e.timestamp) :
    (replaceFirstByTs e logs).map LogEntry.timestamp = logs.map LogEntry.timestamp := by
  induction logs with
  | nil => simp at h
  | cons a l ih =>
    by_cases ha : a.timestamp = e.timestamp
    · simp [replaceFirstByTs, ha]
    · have h' : ∃ x ∈ l, x.timestamp = e.timestamp := by
        rcases h with ⟨x, hx, hxe⟩
        rcases List.mem_cons.mp hx with hx | hx
        · exact absurd (hx ▸ hxe) ha
        · exact ⟨x, hx, hxe⟩
      simp [replaceFirstByTs, ha, ih h']

theorem mem_replaceFirst (e : LogEntry) {logs : List LogEntry}
    (hnd : (logs.map LogEntry.timestamp).Nodup)
    {x : LogEntry} (hx : x ∈ replaceFirstByTs e logs) :
    x = e ∨ (x ∈ logs ∧ x.timestamp ≠ e.timestamp) := by
  induction logs with
  | nil => simpa [replaceFirstByTs] using hx
  | cons a l ih =>
    simp only [List.map_cons, List.nodup_cons] at hnd
    by_cases ha : a.timestamp = e.timestamp
    · simp only [replaceFirstByTs, if_pos ha] at hx
      rcases List.mem_cons.mp hx with hx | hx
      · exact Or.inl hx
      · refine Or.inr ⟨List.mem_cons_of_mem a hx, fun hts => ?_⟩
        exact hnd.1 (ha ▸ hts ▸ List.mem_map.mpr ⟨x, hx, rfl⟩)
    · simp only [replaceFirstByTs, if_neg ha] at hx
      rcases List.mem_cons.mp hx with hx | hx
      · exact Or.inr ⟨hx ▸ List.mem_cons_self a l, hx ▸ ha⟩
      · rcases ih hnd.2 hx with h' | h'
        · exact Or.inl h'
        · exact Or.inr ⟨List.mem_cons_of_mem a h'.1, h'.2⟩

theorem tsLE_trans (a b c : LogEntry) (hab : tsLE a b = true) (hbc : tsLE b c = true) :
    tsLE a c = true := by
  simp only [tsLE, decide_eq_true_eq] at *
  exact le_trans hab hbc

theorem tsLE_total (a b : LogEntry) : tsLE a b = true ∨ tsLE b a = true := by
  simp only [tsLE, decide_eq_true_eq]
  exact le_total a.timestamp b.timestamp

/-- C1. For every store state and entry `e`, db.saveLog upserts by timestamp:
at an existing timestamp the size is unchanged and that entry's content is
replaced (the result contains `e`, and everything else is an old entry with a
different timestamp); at a fresh timestamp the size grows by exactly one; the
persisted collection is sorted ascending by timestamp; and timestamps stay
pairwise distinct, so the store never holds two entries with the same
timestamp. -/
theorem saveLog_upsert_invariant (logs : List LogEntry) (e : LogEntry)
    (hnodup : (logs.map LogEntry.timestamp).Nodup) :
    ((∃ l ∈ logs, l.timestamp = e.timestamp) →
      (saveLog e logs).length = logs.length ∧ e ∈ saveLog e logs ∧
      ∀ x ∈ saveLog e logs, x = e ∨ (x ∈ logs ∧ x.timestamp ≠ e.timestamp)) ∧
    ((∀ l ∈ logs, l.timestamp ≠ e.timestamp) →
      (saveLog e logs).length = logs.length + 1) ∧
    (saveLog e logs).Pairwise (fun a b => a.timestamp ≤ b.timestamp) ∧
    ((saveLog e logs).map LogEntry.timestamp).Nodup := by
  have hperm : (saveLog e logs).Perm (replaceFirstByTs e logs) := by
    rw [saveLog_eq_sort_replaceFirst]
    exact sortStable_perm tsLE (replaceFirstByTs e logs)
  refine ⟨fun hmatch => ?_, fun hno => ?_, ?_, ?_⟩
  · refine ⟨?_, ?_, ?_⟩
    · rw [hperm.length_eq, length_replaceFirst_of_match e hmatch]
    · exact hperm.mem_iff.mpr (self_mem_replaceFirst e logs)
    · intro x hx
      exact mem_replaceFirst e hnodup (hperm.mem_iff.mp hx)
  · rw [hperm.length_eq, replaceFirst_of_no_match e hno]
    simp
  · have hp := pairwise_sortStable tsLE tsLE_trans
      (pairwise_totalizes tsLE tsLE_total (replaceFirstByTs e logs))
    rw [saveLog_eq_sort_replaceFirst]
    exact hp.imp (fun h => by simpa [tsLE] using h)
  · have hmap : ((saveLog e logs).map LogEntry.timestamp).Perm
      ((replaceFirstByTs e logs).map LogEntry.timestamp) := hperm.map _
    rw [hmap.nodup_iff]
    by_cases hmatch : ∃ l ∈ logs, l.timestamp = e.timestamp
    · rw [map_ts_replaceFirst_of_match e hmatch]
      exact hnodup
    · push_neg at hmatch
      rw [replaceFirst_of_no_match e hmatch]
      simp only [List.map_append, List.map_cons, List.map_nil]
      rw [List.nodup_append]
      refine ⟨hnodup, List.nodup_singleton _, ?_⟩
      intro t ht
      simp only [List.mem_singleton]
      rcases List.mem_map.mp ht with ⟨x, hx, rfl⟩
      exact fun hts => (hmatch x hx) hts

/-- Witness for C1 at a concrete store: upserting at the existing
timestamp 0 keeps the two-entry store at size two. -/
theorem saveLog_upsert_invariant_witness :
    ((([⟨"a", 0, "x", none⟩, ⟨"b", 900000, "y", none⟩] : List LogEntry).map
        LogEntry.timestamp).Nodup) ∧
    (saveLog ⟨"c", 0, "z", none⟩
        [⟨"a", 0, "x", none⟩, ⟨"b", 900000, "y", none⟩]).length = 2 :=
  ⟨by decide,
   ((saveLog_upsert_invariant [⟨"a", 0, "x", none⟩, ⟨"b", 900000, "y", none⟩]
      ⟨"c", 0, "z", none⟩ (by decide)).1
      ⟨⟨"a", 0, "x", none⟩, by decide, by decide⟩).1⟩

/-! ## Lemmas about getDaySlots -/

theorem getDaySlots_length (dayStart startHour endHour : Int) :
    (getDaySlots dayStart startHour endHour).length =
      ((if endHour - startHour ≤ 0 then endHour - startHour + 24
        else endHour - startHour) * 4).toNat := by
  simp only [getDaySlots, List.length_map, List.length_range]

theorem getDaySlots_get (dayStart startHour endHour : Int) (i : Nat)
    (hi : i < (getDaySlots dayStart startHour endHour).length) :
    (getDaySlots dayStart startHour endHour).get ⟨i, hi⟩ =
      dayStart + startHour * msPerHour + (i : Int) * 15 * msPerMinute := by
  simp only [getDaySlots, List.get_eq_getElem, List.getElem_map, List.getElem_range]

/-- C2 counterexample. At `(startHour, endHour) = (25, 0)` the claim's
overnight case applies (`endHour ≤ startHour`), but the grid is empty rather
than of the claimed length `(endHour - startHour + 24) * 4 = -4`. -/
theorem getDaySlots_length_counterexample :
    (0 : Int) ≤ 25 ∧ getDaySlots 0 25 0 = [] ∧
    ¬(((getDaySlots 0 25 0).length : Int) = ((0 : Int) - 25 + 24) * 4) := by
  refine ⟨by decide, by decide, by decide⟩

/-- C2 (amended). The slot grid has length `(endHour - startHour) * 4` when
`endHour > startHour` and `(endHour - startHour + 24) * 4` when
`endHour ≤ startHour` with `startHour - endHour < 24` (so equal bounds give a
full 96-slot day), and is empty in the degenerate wrap case
`startHour - endHour ≥ 24`; whenever the grid is non-empty its first
timestamp is `startHour:00` of the day and consecutive timestamps differ by
exactly 15 minutes. -/
theorem getDaySlots_grid_spec (dayStart startHour endHour : Int) :
    (startHour < endHour →
      ((getDaySlots dayStart startHour endHour).length : Int) =
        (endHour - startHour) * 4) ∧
    (endHour ≤ startHour → startHour - endHour < 24 →
      ((getDaySlots dayStart startHour endHour).length : Int) =
        (endHour - startHour + 24) * 4) ∧
    (endHour ≤ startHour → 24 ≤ startHour - endHour →
      getDaySlots dayStart startHour endHour = []) ∧
    (startHour = endHour → (getDaySlots dayStart startHour endHour).length = 96) ∧
    (∀ h0 : 0 < (getDaySlots dayStart startHour endHour).length,
      (getDaySlots dayStart startHour endHour).get ⟨0, h0⟩ =
        dayStart + startHour * msPerHour) ∧
    (∀ i, ∀ hi : i + 1 < (getDaySlots dayStart startHour endHour).length,
      (getDaySlots dayStart startHour endHour).get ⟨i + 1, hi⟩ =
        (getDaySlots dayStart startHour endHour).get ⟨i, Nat.lt_of_succ_lt hi⟩ +
          15 * msPerMinute) := by
  refine ⟨fun hs => ?_, fun hs hlt => ?_, fun hs hge => ?_, fun heq => ?_,
    fun h0 => ?_, fun i hi => ?_⟩
  · rw [getDaySlots_length, if_neg (by omega),
      Int.toNat_of_nonneg (by omega : (0 : Int) ≤ (endHour - startHour) * 4)]
  · rw [getDaySlots_length, if_pos (by omega),
      Int.toNat_of_nonneg (by omega : (0 : Int) ≤ (endHour - startHour + 24) * 4)]
  · have hlen : (getDaySlots dayStart startHour endHour).length = 0 := by
      rw [getDaySlots_length, if_pos (by omega)]
      omega
    exact List.eq_nil_of_length_eq_zero hlen
  · subst heq
    rw [getDaySlots_length]
    norm_num
    rfl
  · rw [getDaySlots_get]
    simp
  · rw [getDaySlots_get, getDaySlots_get]
    push_cast
    ring

/-- Witness for C2 (amended) on the overnight bounds 22:00-04:00: 24 slots. -/
theorem getDaySlots_grid_spec_witness :
    ((4 : Int) ≤ 22) ∧ ((22 : Int) - 4 < 24) ∧
    (((getDaySlots 0 22 4).length : Int) = ((4 : Int) - 22 + 24) * 4) :=
  ⟨by decide, by decide, (getDaySlots_grid_spec 0 22 4).2.1 (by decide) (by decide)⟩

/-! ## Lemmas about the suggestion ranker -/

theorem suggestionMultiplier_eq_spec (x : ℚ) :
    suggestionMultiplier x = specTierMultiplier x := by
  unfold suggestionMultiplier specTierMultiplier
  by_cases h1 : x ≤ 48
  · simp [h1]
  · have h1' : 48 < x := not_le.mp h1
    by_cases h2 : x ≤ 72
    · simp [h1, h2, h1']
    · have h2' : 72 < x := not_le.mp h2
      by_cases h3 : x ≤ 168
      · simp [h1, h2, h3, h2']
      · have h3' : 168 < x := not_le.mp h3
        by_cases h4 : x ≤ 336
        · simp [h1, h2, h3, h4, h3']
        · have h4' : 336 < x := not_le.mp h4
          by_cases h5 : 4320 < x
          · simp [h1, h2, h3, h4, h5, not_le.mpr h5, h4']
          · simp [h1, h2, h3, h4, h5, not_lt.mp h5, h4']

theorem suggestionMultiplier_eq_zero {x : ℚ} (h : 4320 < x) :
    suggestionMultiplier x = 0 := by
  unfold suggestionMultiplier
  have h1 : ¬ x ≤ 48 := by linarith
  have h2 : ¬ x ≤ 72 := by linarith
  have h3 : ¬ x ≤ 168 := by linarith
  have h4 : ¬ x ≤ 336 := by linarith
  simp [h1, h2, h3, h4, h]

theorem jsTrim_empty : jsTrim "" = "" := by decide

theorem scoreStep_getKey (now : Int) (m : List (String × ℚ)) (log : LogEntry)
    (d : String) :
    (getKey d (scoreStep now m log)).getD 0 =
      (getKey d m).getD 0 +
        (if jsTrim log.description = d ∧ jsTrim log.description ≠ "" then
          suggestionMultiplier (((now - log.timestamp : Int) : ℚ) / 3600000) else 0) := by
  unfold scoreStep
  by_cases h0 : log.description = ""
  · rw [h0, jsTrim_empty]
    simp
  · by_cases h1 : jsTrim log.description = ""
    · simp [h0, h1]
    · by_cases hd : jsTrim log.description = d
      · rw [← hd]
        simp [h0, h1, getKey_setKey_self]
      · have hd' : d ≠ jsTrim log.description := fun h' => hd h'.symm
        simp [h0, h1, hd, getKey_setKey_ne hd']

theorem suggestionScores_fold_getKey (now : Int) (d : String) (logs : List LogEntry) :
    ∀ m : List (String × ℚ),
      (getKey d (logs.foldl (scoreStep now) m)).getD 0 =
        (getKey d m).getD 0 +
          ((logs.filter (fun l =>
              decide (jsTrim l.description = d ∧ jsTrim l.description ≠ ""))).map
            (fun l => suggestionMultiplier (((now - l.timestamp : Int) : ℚ) / 3600000))).sum := by
  induction logs with
  | nil => simp
  | cons a l ih =>
    intro m
    rw [List.foldl_cons, ih (scoreStep now m a), scoreStep_getKey]
    by_cases ha : jsTrim a.description = d ∧ jsTrim a.description ≠ ""
    · rw [List.filter_cons_of_pos (by simpa using ha), List.map_cons, List.sum_cons,
        if_pos ha]
      ring
    · rw [List.filter_cons_of_neg (by simpa using ha), if_neg ha]
      ring

theorem nodupKeys_suggestionScores (logs : List LogEntry) (now : Int) :
    ((suggestionScores logs now).map Prod.fst).Nodup := by
  rw [suggestionScores]
  have : ∀ (ls : List LogEntry) (m : List (String × ℚ)),
      (m.map Prod.fst).Nodup → ((ls.foldl (scoreStep now) m).map Prod.fst).Nodup := by
    intro ls
    induction ls with
    | nil => intro m hm; simpa using hm
    | cons a l ih =>
      intro m hm
      rw [List.foldl_cons]
      refine ih (scoreStep now m a) ?_
      unfold scoreStep
      by_cases h0 : a.description = ""
      · simpa [h0] using hm
      · by_cases h1 : jsTrim a.description = ""
        · simpa [h0, h1] using hm
        · simpa [h0, h1] using nodupKeys_setKey hm _ _
  exact this logs [] (by simp)

theorem scoreLE_trans (a b c : String × ℚ) (hab : scoreLE a b = true)
    (hbc : scoreLE b c = true) : scoreLE a c = true := by
  simp only [scoreLE, decide_eq_true_eq] at *
  exact le_trans hbc hab

theorem scoreLE_total (a b : String × ℚ) : scoreLE a b = true ∨ scoreLE b a = true := by
  simp only [scoreLE, decide_eq_true_eq]
  exact le_total b.2 a.2

/-- C3. The ranker scores exactly the entries with non-empty trimmed
description, at the claimed age-tier multiplier computed from
`ageHours = (now - timestamp) / 3600000`, summing multipliers across entries
sharing the same (trimmed) description; in particular two entries with the
same description logged 1 hour and 200 hours before `now` accumulate a score
of 1.0 + 0.1 = 1.1. -/
theorem getWeightedSuggestions_scoring :
    (∀ (logs : List LogEntry) (now : Int) (d : String),
      (getKey d (suggestionScores logs now)).getD 0 =
        ((logs.filter (fun l =>
            decide (jsTrim l.description = d ∧ jsTrim l.description ≠ ""))).map
          (fun l => specTierMultiplier (((now - l.timestamp : Int) : ℚ) / 3600000))).sum) ∧
    (getKey "alpha" (suggestionScores
        [⟨"a", 1000000000000 - 3600000, "alpha", none⟩,
         ⟨"b", 1000000000000 - 200 * 3600000, "alpha", none⟩] 1000000000000)).getD 0 =
      11 / 10 := by
  constructor
  · intro logs now d
    rw [suggestionScores, suggestionScores_fold_getKey]
    simp only [suggestionMultiplier_eq_spec]
    simp [getKey]
  · have e1 : jsTrim "alpha" = "alpha" := by decide
    simp [suggestionScores, scoreStep, suggestionMultiplier, setKey, getKey, e1]
    norm_num

/-- C9 counterexample. A description whose only entry is older than 4320
hours (six months) scores zero yet still appears in the ranker's output. -/
theorem getWeightedSuggestions_zeroScore_counterexample :
    getWeightedSuggestions [⟨"i1", 0, "old stuff", none⟩] (4321 * 3600000) 8 =
      ["old stuff"] ∧
    4320 < (((4321 * 3600000 : Int) - 0 : Int) : ℚ) / 3600000 := by
  constructor
  · decide
  · norm_num

/-- C9 (amended). A description all of whose entries are older than 4320
hours has score 0 for any `now`; it is not filtered from the output, but it
can only appear after every description with positive score (the output is
sorted descending by score). -/
theorem getWeightedSuggestions_zeroScore_spec (logs : List LogEntry) (now : Int)
    (d : String) (limit : Nat)
    (h : ∀ l ∈ logs, jsTrim l.description = d →
      4320 < ((now - l.timestamp : Int) : ℚ) / 3600000) :
    (getKey d (suggestionScores logs now)).getD 0 = 0 ∧
    ∀ (i j : Nat) (hi : i < (getWeightedSuggestions logs now limit).length)
      (hj : j < (getWeightedSuggestions logs now limit).length),
      (getWeightedSuggestions logs now limit).get ⟨j, hj⟩ = d →
      0 < (getKey ((getWeightedSuggestions logs now limit).get ⟨i, hi⟩)
            (suggestionScores logs now)).getD 0 →
      i < j := by
  have hscore : (getKey d (suggestionScores logs now)).getD 0 = 0 := by
    rw [suggestionScores, suggestionScores_fold_getKey]
    simp only [getKey, Option.getD_none, zero_add]
    refine List.sum_eq_zero ?_
    intro x hx
    rcases List.mem_map.mp hx with ⟨l, hl, rfl⟩
    rcases List.mem_filter.mp hl with ⟨hl, hcond⟩
    simp only [decide_eq_true_eq] at hcond
    exact suggestionMultiplier_eq_zero (h l hl hcond.1)
  refine ⟨hscore, ?_⟩
  intro i j hi hj hjd hipos
  set S := suggestionScores logs now with hS
  set sorted := sortStable scoreLE S with hsorted
  have hperm : sorted.Perm S := sortStable_perm scoreLE S
  have hnd : (S.map Prod.fst).Nodup := nodupKeys_suggestionScores logs now
  have hndSorted : sorted.Nodup := by
    rw [hperm.nodup_iff]
    exact hnd.of_map _
  have hpw : sorted.Pairwise (fun a b => scoreLE a b = true) :=
    pairwise_sortStable scoreLE scoreLE_trans (pairwise_totalizes scoreLE scoreLE_total S)
  have hlen : (getWeightedSuggestions logs now limit).length ≤ sorted.length := by
    simp only [getWeightedSuggestions, ← hS, ← hsorted, List.length_take, List.length_map]
    omega
  have hj' : j < sorted.length := lt_of_lt_of_le hj hlen
  have hi' : i < sorted.length := lt_of_lt_of_le hi hlen
  have hgetout : ∀ (n : Nat) (hn : n < (getWeightedSuggestions logs now limit).length)
      (hn' : n < sorted.length),
      (getWeightedSuggestions logs now limit).get ⟨n, hn⟩ = (sorted.get ⟨n, hn'⟩).1 := by
    intro n hn hn'
    simp only [getWeightedSuggestions, ← hS, ← hsorted, List.get_eq_getElem]
    rw [List.getElem_take, List.getElem_map]
  have hjval : (sorted.get ⟨j, hj'⟩).1 = d := by
    rw [← hgetout j hj hj']
    exact hjd
  have hjmem : sorted.get ⟨j, hj'⟩ ∈ S := hperm.subset (sorted.get_mem _ _)
  have hjkey : getKey d S = some (sorted.get ⟨j, hj'⟩).2 := by
    rw [← hjval]
    exact getKey_eq_some_of_mem hnd (by simpa using hjmem)
  have hjzero : (sorted.get ⟨j, hj'⟩).2 = 0 := by
    have := hscore
    rw [hjkey] at this
    simpa using this
  have himem : sorted.get ⟨i, hi'⟩ ∈ S := hperm.subset (sorted.get_mem _ _)
  have hikey : getKey (sorted.get ⟨i, hi'⟩).1 S = some (sorted.get ⟨i, hi'⟩).2 :=
    getKey_eq_some_of_mem hnd (by simpa using himem)
  have hipos' : 0 < (sorted.get ⟨i, hi'⟩).2 := by
    rw [hgetout i hi hi', hikey] at hipos
    simpa using hipos
  by_contra hij
  push_neg at hij
  rcases lt_or_eq_of_le hij with hlt | heq
  · have := (List.pairwise_iff_get.mp hpw) ⟨j, hj'⟩ ⟨i, hi'⟩ hlt
    simp only [scoreLE, decide_eq_true_eq] at this
    rw [hjzero] at this
    exact absurd (lt_of_lt_of_le hipos' this) (lt_irrefl 0)
  · subst heq
    have hsame : sorted.get ⟨j, hj'⟩ = sorted.get ⟨j, hi'⟩ := by
      congr 1
    rw [hsame] at hjzero
    rw [hjzero] at hipos'
    exact absurd hipos' (lt_irrefl 0)

/-- Witness for C9 (amended): the single stale entry scores zero. -/
theorem getWeightedSuggestions_zeroScore_spec_witness :
    (∀ l ∈ ([⟨"i1", 0, "old stuff", none⟩] : List LogEntry),
      jsTrim l.description = "old stuff" →
      4320 < (((4321 * 3600000 : Int) - l.timestamp : Int) : ℚ) / 3600000) ∧
    (getKey "old stuff"
      (suggestionScores [⟨"i1", 0, "old stuff", none⟩] (4321 * 3600000))).getD 0 = 0 := by
  have hH : ∀ l ∈ ([⟨"i1", 0, "old stuff", none⟩] : List LogEntry),
      jsTrim l.description = "old stuff" →
      4320 < (((4321 * 3600000 : Int) - l.timestamp : Int) : ℚ) / 3600000 := by
    intro l hl _
    rcases List.mem_singleton.mp hl with rfl
    norm_num
  exact ⟨hH,
    (getWeightedSuggestions_zeroScore_spec [⟨"i1", 0, "old stuff", none⟩]
      (4321 * 3600000) "old stuff" 8 hH).1⟩

/-! ## Lemmas about the auto-categorizer -/

theorem lookback_eq_find (cleanText : String) (now : Int) (l : List LogEntry)
    (h : l.Pairwise (fun a b => b.timestamp ≤ a.timestamp)) :
    lookback cleanText now l =
      ((l.filter (fun e => decide (now - e.timestamp ≤ thirtyDaysMs))).find?
        (fun e => decide (e.description ≠ "" ∧ jsToLower e.description = cleanText ∧
          categoryTruthy e.category = true))).bind LogEntry.category := by
  induction l with
  | nil => simp [lookback]
  | cons a l ih =>
    by_cases hwin : thirtyDaysMs < now - a.timestamp
    · rw [lookback, if_pos hwin]
      have hfil : (a :: l).filter (fun e => decide (now - e.timestamp ≤ thirtyDaysMs)) = [] := by
        rw [List.filter_cons_of_neg (by simp only [decide_eq_true_eq]; omega)]
        rw [List.filter_eq_nil_iff]
        intro e he
        have : e.timestamp ≤ a.timestamp := List.rel_of_pairwise_cons h he
        simp only [decide_eq_true_eq]
        omega
      rw [hfil]
      rfl
    · rw [lookback, if_neg hwin]
      rw [List.filter_cons_of_pos (by simpa using not_lt.mp hwin)]
      by_cases hcond : a.description ≠ "" ∧ jsToLower a.description = cleanText ∧
          categoryTruthy a.category = true
      · rw [if_pos hcond]
        rw [List.find?_cons_of_pos _ (by simpa using hcond)]
        rfl
      · rw [if_neg hcond]
        rw [List.find?_cons_of_neg _ (by simpa using hcond)]
        exact ih h.tail

/-- C5 counterexample. A sole prior entry whose description carries
surrounding whitespace (" standup ") satisfies every condition of the claim
(trimmed lowercased description equality, within the 30-day window, non-empty
category), yet findLastCategoryForText returns none: the source lowercases
but never trims the stored description. -/
theorem findLastCategoryForText_counterexample :
    findLastCategoryForText "Standup" [⟨"a", 0, " standup ", some "Meetings"⟩]
        (5 * 86400000) = none ∧
    jsToLower (jsTrim " standup ") = jsToLower (jsTrim "Standup") ∧
    (5 * 86400000 : Int) - 0 ≤ thirtyDaysMs ∧
    categoryTruthy (some "Meetings") = true := by
  refine ⟨by decide, by decide, by decide, by decide⟩

/-- C5 (amended). On a chronologically ordered store, the auto-categorizer
returns none for blank input, and otherwise the category of the most recent
entry within the 30-day window whose lowercased (untrimmed) description
equals the trimmed lowercased input and whose category is non-empty — none
when no such entry exists in the window. -/
theorem findLastCategoryForText_spec (text : String) (logs : List LogEntry)
    (now : Int)
    (hsorted : logs.Pairwise (fun a b => a.timestamp ≤ b.timestamp)) :
    findLastCategoryForText text logs now =
      if jsTrim text = "" then none
      else
        ((logs.reverse.filter (fun e => decide (now - e.timestamp ≤ thirtyDaysMs))).find?
          (fun e => decide (e.description ≠ "" ∧
            jsToLower e.description = jsToLower (jsTrim text) ∧
            categoryTruthy e.category = true))).bind LogEntry.category := by
  unfold findLastCategoryForText
  by_cases ht : jsTrim text = ""
  · simp [ht]
  · rw [if_neg ht, if_neg ht]
    refine lookback_eq_find (jsToLower (jsTrim text)) now logs.reverse ?_
    rw [List.pairwise_reverse]
    exact hsorted

/-- Witness for C5 (amended): a trimmed "standup" entry five days old is
found for the input "Standup". -/
theorem findLastCategoryForText_spec_witness :
    (([⟨"a", 0, "standup", some "Meetings"⟩] : List LogEntry).Pairwise
      (fun a b => a.timestamp ≤ b.timestamp)) ∧
    findLastCategoryForText "Standup" [⟨"a", 0, "standup", some "Meetings"⟩]
      (5 * 86400000) = some "Meetings" := by
  refine ⟨by simp, ?_⟩
  rw [findLastCategoryForText_spec "Standup" [⟨"a", 0, "standup", some "Meetings"⟩]
    (5 * 86400000) (by simp)]
  decide

/-! ## Lemmas about the backup codec -/

theorem getSettings_categories_ne_nil (saved : PartialSettings) (defaults : AppSettings) :
    (getSettings saved defaults).categories ≠ [] := by
  unfold getSettings
  rcases saved.categories with _ | cs
  · simp [defaultCategories]
  · by_cases h : cs.length > 0
    · simp only [if_pos h]
      intro hnil
      rw [hnil] at h
      simp at h
    · simp only [if_neg h]
      simp [defaultCategories]

theorem getSettings_toPartial (saved : PartialSettings) (defaults : AppSettings) :
    getSettings (toPartial (getSettings saved defaults)) defaults =
      getSettings saved defaults := by
  have hne := getSettings_categories_ne_nil saved defaults
  unfold toPartial
  unfold getSettings
  simp only [Option.getD_some]
  have hlen : ((getSettings saved defaults).categories).length > 0 := by
    rcases h : (getSettings saved defaults).categories with _ | ⟨c, cs⟩
    · exact absurd h hne
    · simp
  simp only [getSettings] at hlen
  rw [if_pos hlen]

/-- C6. Restoring a backup document without a logs field fails and leaves the
persisted logs, settings and tags untouched; restoring a document with a logs
field succeeds, writes the logs, and writes settings and tags exactly when
those fields are present, keeping the prior persisted values otherwise. -/
theorem restoreData_partial_spec (s : Store) (doc : BackupDoc) :
    (doc.logs = none → restoreData doc s = (false, s)) ∧
    (∀ ls, doc.logs = some ls →
      (restoreData doc s).1 = true ∧
      (restoreData doc s).2.logs = ls ∧
      (doc.settings = none → (restoreData doc s).2.settingsRaw = s.settingsRaw) ∧
      (∀ ps, doc.settings = some ps → (restoreData doc s).2.settingsRaw = ps) ∧
      (doc.tags = none → (restoreData doc s).2.tags = s.tags) ∧
      (∀ tgs, doc.tags = some tgs → (restoreData doc s).2.tags = tgs)) := by
  constructor
  · intro hnone
    simp [restoreData, hnone]
  · intro ls hls
    refine ⟨?_, ?_, ?_, ?_, ?_, ?_⟩ <;>
      simp [restoreData, hls]
    · intro hs
      simp [hs]
    · intro ps hps
      simp [hps]
    · intro ht
      simp [ht]
    · intro tgs ht
      simp [ht]

/-- Witness for C6: a document with only a logs field restores the logs and
keeps the prior settings and tags. -/
theorem restoreData_partial_spec_witness :
    ((⟨some [⟨"a", 0, "x", none⟩], none, none⟩ : BackupDoc).logs =
      some [⟨"a", 0, "x", none⟩]) ∧
    (restoreData ⟨some [⟨"a", 0, "x", none⟩], none, none⟩
      ⟨[], ⟨none, none, none, none, none, none, none, none⟩, ["t"]⟩).2.tags = ["t"] := by
  refine ⟨rfl, ?_⟩
  have h := (restoreData_partial_spec
    ⟨[], ⟨none, none, none, none, none, none, none, none⟩, ["t"]⟩
    ⟨some [⟨"a", 0, "x", none⟩], none, none⟩).2 [⟨"a", 0, "x", none⟩] rfl
  exact h.2.2.2.2.1 rfl

/-- C7. Round trip: restoring an exported backup succeeds and reproduces the
stored entry list, the tag list, and the settings as read back through
db.getSettings, identically to the state before the export. -/
theorem restore_export_roundTrip (s : Store) (defaults : AppSettings) :
    (restoreData (exportData s defaults) s).1 = true ∧
    (restoreData (exportData s defaults) s).2.logs = s.logs ∧
    (restoreData (exportData s defaults) s).2.tags = s.tags ∧
    getSettings (restoreData (exportData s defaults) s).2.settingsRaw defaults =
      getSettings s.settingsRaw defaults := by
  refine ⟨rfl, rfl, rfl, ?_⟩
  show getSettings (toPartial (getSettings s.settingsRaw defaults)) defaults =
    getSettings s.settingsRaw defaults
  exact getSettings_toPartial s.settingsRaw defaults

/-! ## Lemmas about the aggregator -/

theorem hasKey_setKey {β : Type} (c k : String) (v : β) (m : List (String × β)) :
    hasKey c (setKey k v m) = true ↔ c = k ∨ hasKey c m = true := by
  rw [hasKey_iff_mem_keys, hasKey_iff_mem_keys]
  constructor
  · intro h
    rcases keys_setKey_subset k v m h with h' | h'
    · exact Or.inr h'
    · exact Or.inl h'
  · intro h
    rcases h with h | h
    · exact h ▸ mem_keys_setKey_self k v m
    · exact mem_keys_setKey_of_mem h k v

theorem getKey_setKey_elim {β : Type} {n k : String} {v : β} {m : List (String × β)}
    {g : β} (h : getKey n (setKey k v m) = some g) : g = v ∨ getKey n m = some g := by
  by_cases hnk : n = k
  · subst hnk
    rw [getKey_setKey_self] at h
    exact Or.inl (Option.some_injective _ h).symm
  · rw [getKey_setKey_ne hnk] at h
    exact Or.inr h

theorem aggFold_eq (filtered : List LogEntry) (categories : List Category) :
    aggFold filtered categories =
      (filtered.foldl routeStep (initGroups categories), 15 * filtered.length) := by
  rw [aggFold]
  have : ∀ (l : List LogEntry) (g : List (String × BucketAcc)) (t : Nat),
      l.foldl (fun acc log => (routeStep acc.1 log, acc.2 + 15)) (g, t) =
        (l.foldl routeStep g, t + 15 * l.length) := by
    intro l
    induction l with
    | nil => intro g t; simp
    | cons a l ih =>
      intro g t
      rw [List.foldl_cons, List.foldl_cons, ih]
      refine congrArg _ ?_
      simp only [List.length_cons]
      ring
  rw [this]
  simp

theorem hasKey_initGroups (categories : List Category) (c : String) :
    hasKey c (initGroups categories) = true ↔
      c ∈ categories.map Category.name ∨ c = "Uncategorized" := by
  rw [initGroups, hasKey_setKey]
  have : ∀ (cats : List Category) (m0 : List (String × BucketAcc)),
      hasKey c (cats.foldl (fun m cat => setKey cat.name ⟨0, [], cat.color⟩ m) m0) = true ↔
        c ∈ cats.map Category.name ∨ hasKey c m0 = true := by
    intro cats
    induction cats with
    | nil => intro m0; simp
    | cons a l ih =>
      intro m0
      rw [List.foldl_cons, ih, hasKey_setKey]
      simp only [List.map_cons, List.mem_cons]
      tauto
  rw [this]
  simp only [hasKey, getKey, Option.isSome_none]
  constructor
  · intro h
    rcases h with h | h
    · exact Or.inr h
    · rcases h with h | h
      · exact Or.inl h
      · simp at h
  · intro h
    rcases h with h | h
    · exact Or.inr (Or.inl h)
    · exact Or.inl h

theorem routeStep_eq (groups : List (String × BucketAcc)) (log : LogEntry) :
    routeStep groups log =
      match getKey (routeTarget groups log) groups with
      | some g =>
        setKey (routeTarget groups log)
          ⟨g.mins + 15,
            setKey (if log.description = "" then "(No description)" else log.description)
              ((getKey (if log.description = "" then "(No description)" else log.description)
                g.tasks).getD 0 + 15) g.tasks, g.color⟩ groups
      | none => groups := rfl

theorem hasKey_routeStep (groups : List (String × BucketAcc)) (log : LogEntry)
    (c : String) :
    hasKey c (routeStep groups log) = true ↔ hasKey c groups = true := by
  rw [routeStep_eq]
  rcases h : getKey (routeTarget groups log) groups with _ | g
  · exact Iff.rfl
  · rw [hasKey_setKey]
    constructor
    · intro h'
      rcases h' with h' | h'
      · rw [h', hasKey, h]
        rfl
      · exact h'
    · exact Or.inr

theorem getKey_routeStep_ne (groups : List (String × BucketAcc)) (log : LogEntry)
    {n : String} (hn : n ≠ routeTarget groups log) :
    getKey n (routeStep groups log) = getKey n groups := by
  rw [routeStep_eq]
  rcases h : getKey (routeTarget groups log) groups with _ | g
  · rfl
  · exact getKey_setKey_ne hn _ _

theorem getKey_routeStep_target (groups : List (String × BucketAcc)) (log : LogEntry)
    {g : BucketAcc} (h : getKey (routeTarget groups log) groups = some g) :
    ∃ g', getKey (routeTarget groups log) (routeStep groups log) = some g' ∧
      g'.mins = g.mins + 15 := by
  rw [routeStep_eq, h]
  exact ⟨_, getKey_setKey_self _ _ _, rfl⟩

theorem routeTarget_eq_spec (groups : List (String × BucketAcc))
    (categories : List Category) (log : LogEntry)
    (hkeys : ∀ c, hasKey c groups = true ↔
      c ∈ categories.map Category.name ∨ c = "Uncategorized") :
    routeTarget groups log = specRouteName categories log := by
  unfold routeTarget specRouteName
  rcases log.category with _ | c
  · rfl
  · show (if c ≠ "" ∧ hasKey c groups = true then c else "Uncategorized") =
      (if c ≠ "" ∧ c ∈ categories.map Category.name then c else "Uncategorized")
    by_cases hc : c = ""
    · rw [if_neg (fun hand : c ≠ "" ∧ hasKey c groups = true => hand.1 hc),
        if_neg (fun hand : c ≠ "" ∧ c ∈ categories.map Category.name => hand.1 hc)]
    · by_cases hmem : c ∈ categories.map Category.name
      · rw [if_pos (⟨hc, (hkeys c).mpr (Or.inl hmem)⟩ : c ≠ "" ∧ hasKey c groups = true),
          if_pos (⟨hc, hmem⟩ : c ≠ "" ∧ c ∈ categories.map Category.name)]
      · rw [if_neg (fun hand : c ≠ "" ∧ c ∈ categories.map Category.name =>
          hmem hand.2)]
        by_cases hk : hasKey c groups = true
        · rw [if_pos (⟨hc, hk⟩ : c ≠ "" ∧ hasKey c groups = true)]
          rcases (hkeys c).mp hk with h' | h'
          · exact absurd h' hmem
          · exact h'
        · rw [if_neg (fun hand : c ≠ "" ∧ hasKey c groups = true => hk hand.2)]

theorem routeTarget_getKey_isSome (groups : List (String × BucketAcc))
    (categories : List Category) (log : LogEntry)
    (hkeys : ∀ c, hasKey c groups = true ↔
      c ∈ categories.map Category.name ∨ c = "Uncategorized") :
    ∃ g, getKey (routeTarget groups log) groups = some g := by
  have hU : hasKey "Uncategorized" groups = true :=
    (hkeys "Uncategorized").mpr (Or.inr rfl)
  unfold routeTarget
  rcases log.category with _ | c
  · exact Option.isSome_iff_exists.mp hU
  · show ∃ g, getKey (if c ≠ "" ∧ hasKey c groups = true then c else "Uncategorized")
      groups = some g
    by_cases hcc : c ≠ "" ∧ hasKey c groups = true
    · rw [if_pos hcc]
      exact Option.isSome_iff_exists.mp hcc.2
    · rw [if_neg hcc]
      exact Option.isSome_iff_exists.mp hU

theorem foldl_routeStep_mins (categories : List Category) (l : List LogEntry) :
    ∀ groups : List (String × BucketAcc),
      (∀ c, hasKey c groups = true ↔
        c ∈ categories.map Category.name ∨ c = "Uncategorized") →
      ∀ n g, getKey n (l.foldl routeStep groups) = some g →
        ∃ g0, getKey n groups = some g0 ∧
          g.mins = g0.mins +
            15 * (l.filter (fun e => decide (specRouteName categories e = n))).length := by
  induction l with
  | nil =>
    intro groups _ n g hg
    exact ⟨g, hg, by simp⟩
  | cons a l ih =>
    intro groups hkeys n g hg
    rw [List.foldl_cons] at hg
    have hkeys' : ∀ c, hasKey c (routeStep groups a) = true ↔
        c ∈ categories.map Category.name ∨ c = "Uncategorized" := by
      intro c
      rw [hasKey_routeStep]
      exact hkeys c
    obtain ⟨g1, hg1, hmins1⟩ := ih (routeStep groups a) hkeys' n g hg
    have hroute : routeTarget groups a = specRouteName categories a :=
      routeTarget_eq_spec groups categories a hkeys
    by_cases hn : n = routeTarget groups a
    · obtain ⟨g0, hg0⟩ := routeTarget_getKey_isSome groups categories a hkeys
      obtain ⟨g', hg', hmins'⟩ := getKey_routeStep_target groups a hg0
      rw [hn] at hg1
      rw [hg'] at hg1
      have hg1g : g1 = g' := (Option.some_injective _ hg1).symm
      refine ⟨g0, hn ▸ hg0, ?_⟩
      rw [List.filter_cons_of_pos (by simp [← hroute, ← hn]), List.length_cons]
      rw [hmins1, hg1g, hmins']
      ring
    · have hgn : getKey n (routeStep groups a) = getKey n groups :=
        getKey_routeStep_ne groups a hn
      rw [hgn] at hg1
      refine ⟨g1, hg1, ?_⟩
      rw [List.filter_cons_of_neg (by simp [← hroute]; exact fun h' => hn h'.symm)]
      exact hmins1

theorem getKey_initGroups_mins (categories : List Category) (n : String)
    {g : BucketAcc} (h : getKey n (initGroups categories) = some g) : g.mins = 0 := by
  rw [initGroups] at h
  rcases getKey_setKey_elim h with h' | h'
  · rw [h']
  · have : ∀ (cats : List Category) (m0 : List (String × BucketAcc)),
        (∀ g0 : BucketAcc, getKey n m0 = some g0 → g0.mins = 0) →
        ∀ g0 : BucketAcc,
          getKey n (cats.foldl (fun m cat => setKey cat.name ⟨0, [], cat.color⟩ m) m0) =
            some g0 → g0.mins = 0 := by
      intro cats
      induction cats with
      | nil => intro m0 hm0; exact hm0
      | cons a l ihc =>
        intro m0 hm0
        rw [List.foldl_cons]
        refine ihc (setKey a.name ⟨0, [], a.color⟩ m0) ?_
        intro g0 hg0
        rcases getKey_setKey_elim hg0 with h'' | h''
        · rw [h'']
        · exact hm0 g0 h''
    exact this categories [] (by simp [getKey]) g h'

theorem nodupKeys_initGroups (categories : List Category) :
    ((initGroups categories).map Prod.fst).Nodup := by
  rw [initGroups]
  refine nodupKeys_setKey ?_ _ _
  have : ∀ (cats : List Category) (m0 : List (String × BucketAcc)),
      (m0.map Prod.fst).Nodup →
      ((cats.foldl (fun m cat => setKey cat.name ⟨0, [], cat.color⟩ m) m0).map
        Prod.fst).Nodup := by
    intro cats
    induction cats with
    | nil => intro m0 hm0; exact hm0
    | cons a l ihc =>
      intro m0 hm0
      rw [List.foldl_cons]
      exact ihc _ (nodupKeys_setKey hm0 _ _)
  exact this categories [] (by simp)

theorem nodupKeys_routeStep (groups : List (String × BucketAcc)) (log : LogEntry)
    (h : (groups.map Prod.fst).Nodup) :
    ((routeStep groups log).map Prod.fst).Nodup := by
  rw [routeStep_eq]
  rcases hg : getKey (routeTarget groups log) groups with _ | g
  · exact h
  · exact nodupKeys_setKey h _ _

theorem nodupKeys_foldl_routeStep (l : List LogEntry) :
    ∀ groups : List (String × BucketAcc), (groups.map Prod.fst).Nodup →
      ((l.foldl routeStep groups).map Prod.fst).Nodup := by
  induction l with
  | nil => intro groups h; exact h
  | cons a l ih =>
    intro groups h
    rw [List.foldl_cons]
    exact ih _ (nodupKeys_routeStep groups a h)

theorem assign_map_proj (idx : Nat) (d : List BucketOut) :
    (assignFallbackColorsFrom idx d).map (fun b => (b.name, b.value, b.percentage)) =
      d.map (fun b => (b.name, b.value, b.percentage)) := by
  induction d generalizing idx with
  | nil => rfl
  | cons b rest ih =>
    rw [assignFallbackColorsFrom, List.map_cons, List.map_cons, ih]
    by_cases hc : b.color = ""
    · rw [if_pos hc]
    · rw [if_neg hc]

theorem aggregate_total (logs : List LogEntry) (rangeStart rangeEnd : Int)
    (categories : List Category) (categoryColors : List (String × String)) :
    (aggregate logs rangeStart rangeEnd categories categoryColors).2 =
      15 * (logs.filter (inRange rangeStart rangeEnd)).length := by
  simp only [aggregate, aggFold_eq]

theorem bucketLE_trans (a b c : BucketOut) (hab : bucketLE a b = true)
    (hbc : bucketLE b c = true) : bucketLE a c = true := by
  unfold bucketLE at *
  by_cases ha : a.name = "Uncategorized"
  · rw [if_pos ha] at hab
    exact absurd hab (by simp)
  · rw [if_neg ha] at hab ⊢
    by_cases hc : c.name = "Uncategorized"
    · rw [if_pos hc]
    · rw [if_neg hc]
      by_cases hb : b.name = "Uncategorized"
      · rw [if_pos hb] at hbc
        exact absurd hbc (by simp)
      · rw [if_neg hb] at hab
        rw [if_neg hb, if_neg hc] at hbc
        simp only [decide_eq_true_eq] at *
        omega

theorem bucketLE_total_of_ne {a b : BucketOut} (h : a.name ≠ b.name) :
    bucketLE a b = true ∨ bucketLE b a = true := by
  unfold bucketLE
  by_cases ha : a.name = "Uncategorized"
  · have hb : ¬ b.name = "Uncategorized" := fun hb => h (ha.trans hb.symm)
    right
    rw [if_neg hb, if_pos ha]
  · by_cases hb : b.name = "Uncategorized"
    · left
      rw [if_neg ha, if_pos hb]
    · rcases le_total b.value a.value with h' | h'
      · left
        rw [if_neg ha, if_neg hb]
        simpa using h'
      · right
        rw [if_neg hb, if_neg ha]
        simpa using h'

theorem bucketLE_iff (a b : BucketOut) :
    bucketLE a b = true ↔
      a.name ≠ "Uncategorized" ∧ (b.name = "Uncategorized" ∨ b.value ≤ a.value) := by
  unfold bucketLE
  by_cases ha : a.name = "Uncategorized"
  · rw [if_pos ha]
    simp [ha]
  · rw [if_neg ha]
    by_cases hb : b.name = "Uncategorized"
    · rw [if_pos hb]
      simp [ha, hb]
    · rw [if_neg hb]
      simp [ha, hb]

theorem pairwise_assign_sort (d : List BucketOut)
    (hnames : (d.map (fun b => b.name)).Nodup) :
    (assignFallbackColorsFrom 0 (sortStable bucketLE d)).Pairwise
      (fun a b => a.name ≠ "Uncategorized" ∧
        (b.name = "Uncategorized" ∨ b.value ≤ a.value)) := by
  have hne : d.Pairwise (fun a b => a.name ≠ b.name) := by
    rw [List.Nodup, List.pairwise_map] at hnames
    exact hnames
  have htot : d.Pairwise (fun a b => bucketLE a b = true ∨ bucketLE b a = true) :=
    hne.imp (fun h => bucketLE_total_of_ne h)
  have hsorted : (sortStable bucketLE d).Pairwise (fun a b => bucketLE a b = true) :=
    pairwise_sortStable bucketLE bucketLE_trans htot
  have himp : (sortStable bucketLE d).Pairwise
      (fun a b => a.name ≠ "Uncategorized" ∧
        (b.name = "Uncategorized" ∨ b.value ≤ a.value)) :=
    hsorted.imp (fun h => (bucketLE_iff _ _).mp h)
  have h3 : ((assignFallbackColorsFrom 0 (sortStable bucketLE d)).map
      (fun b => (b.name, b.value, b.percentage))).Pairwise
      (fun x y => x.1 ≠ "Uncategorized" ∧ (y.1 = "Uncategorized" ∨ y.2.1 ≤ x.2.1)) := by
    rw [assign_map_proj]
    exact List.pairwise_map.mpr himp
  exact List.pairwise_map.mp h3

theorem aggregate_mem_elim (logs : List LogEntry) (rangeStart rangeEnd : Int)
    (categories : List Category) (categoryColors : List (String × String))
    {b : BucketOut} (hb : b ∈ (aggregate logs rangeStart rangeEnd categories categoryColors).1) :
    ∃ p : String × BucketAcc,
      getKey p.1 ((logs.filter (inRange rangeStart rangeEnd)).foldl routeStep
        (initGroups categories)) = some p.2 ∧
      0 < p.2.mins ∧ b.name = p.1 ∧ b.value = p.2.mins ∧
      b.percentage =
        (if 0 < 15 * (logs.filter (inRange rangeStart rangeEnd)).length then
          ((p.2.mins : ℚ) /
            ((15 * (logs.filter (inRange rangeStart rangeEnd)).length : Nat) : ℚ)) * 100
        else 0) := by
  simp only [aggregate, aggFold_eq, assignFallbackColors] at hb
  have hproj := List.mem_map_of_mem (fun b : BucketOut => (b.name, b.value, b.percentage)) hb
  rw [assign_map_proj] at hproj
  rw [List.Perm.mem_iff ((sortStable_perm bucketLE _).map
    (fun b : BucketOut => (b.name, b.value, b.percentage)))] at hproj
  rw [List.map_map] at hproj
  rcases List.mem_map.mp hproj with ⟨p, hpmem, hpeq⟩
  rcases List.mem_filter.mp hpmem with ⟨hpG, hpmins⟩
  simp only [decide_eq_true_eq] at hpmins
  have hnd : (((logs.filter (inRange rangeStart rangeEnd)).foldl routeStep
      (initGroups categories)).map Prod.fst).Nodup :=
    nodupKeys_foldl_routeStep _ _ (nodupKeys_initGroups categories)
  have hget : getKey p.1 ((logs.filter (inRange rangeStart rangeEnd)).foldl routeStep
      (initGroups categories)) = some p.2 := by
    refine getKey_eq_some_of_mem hnd ?_
    simpa using hpG
  simp only [Function.comp] at hpeq
  rw [Prod.mk.injEq, Prod.mk.injEq] at hpeq
  exact ⟨p, hget, hpmins, hpeq.1.symm, hpeq.2.1.symm, hpeq.2.2.symm⟩

theorem aggregate_bucket_mins (logs : List LogEntry) (rangeStart rangeEnd : Int)
    (categories : List Category) {n : String} {g : BucketAcc}
    (h : getKey n ((logs.filter (inRange rangeStart rangeEnd)).foldl routeStep
      (initGroups categories)) = some g) :
    g.mins = 15 * ((logs.filter (inRange rangeStart rangeEnd)).filter
      (fun e => decide (specRouteName categories e = n))).length := by
  obtain ⟨g0, hg0, hmins⟩ := foldl_routeStep_mins categories
    (logs.filter (inRange rangeStart rangeEnd)) (initGroups categories)
    (hasKey_initGroups categories) n g h
  rw [hmins, getKey_initGroups_mins categories n hg0, zero_add]

theorem aggregate_bucket_facts (logs : List LogEntry) (rangeStart rangeEnd : Int)
    (categories : List Category) (categoryColors : List (String × String))
    {b : BucketOut} (hb : b ∈ (aggregate logs rangeStart rangeEnd categories categoryColors).1) :
    0 < b.value ∧
    0 < (aggregate logs rangeStart rangeEnd categories categoryColors).2 ∧
    b.percentage = ((b.value : ℚ) /
      (((aggregate logs rangeStart rangeEnd categories categoryColors).2 : Nat) : ℚ)) * 100 := by
  obtain ⟨p, hget, hpos, hname, hval, hperc⟩ :=
    aggregate_mem_elim logs rangeStart rangeEnd categories categoryColors hb
  have hmins := aggregate_bucket_mins logs rangeStart rangeEnd categories hget
  have hcount : ((logs.filter (inRange rangeStart rangeEnd)).filter
      (fun e => decide (specRouteName categories e = p.1))).length ≤
      (logs.filter (inRange rangeStart rangeEnd)).length :=
    List.length_filter_le _ _
  have htotpos : 0 < 15 * (logs.filter (inRange rangeStart rangeEnd)).length := by
    rw [hmins] at hpos
    omega
  rw [aggregate_total]
  refine ⟨hval ▸ hpos, htotpos, ?_⟩
  rw [hperc, if_pos htotpos, hval]

theorem aggregate_empty_of_total_zero (logs : List LogEntry) (rangeStart rangeEnd : Int)
    (categories : List Category) (categoryColors : List (String × String))
    (h : (aggregate logs rangeStart rangeEnd categories categoryColors).2 = 0) :
    (aggregate logs rangeStart rangeEnd categories categoryColors).1 = [] := by
  rw [aggregate_total] at h
  have hlen : (logs.filter (inRange rangeStart rangeEnd)).length = 0 := by omega
  have hnil : logs.filter (inRange rangeStart rangeEnd) = [] :=
    List.eq_nil_of_length_eq_zero hlen
  simp only [aggregate, aggFold_eq, hnil, List.foldl_nil]
  have hfil : (initGroups categories).filter (fun p => decide (0 < p.2.mins)) = [] := by
    rw [List.filter_eq_nil_iff]
    intro p hp
    have hget : getKey p.1 (initGroups categories) = some p.2 := by
      refine getKey_eq_some_of_mem (nodupKeys_initGroups categories) ?_
      simpa using hp
    have := getKey_initGroups_mins categories p.1 hget
    simp [this]
  rw [hfil]
  rfl

/-- C4 counterexample. With a configured category whose name is the empty
string and an in-range entry carrying that category, the claim routes the
entry to the bucket named by its (configured) category, but the source's
truthiness test sends it to Uncategorized instead. -/
theorem aggregate_routing_counterexample :
    ("" ∈ ([⟨"c1", "", "#111111"⟩] : List Category).map Category.name) ∧
    (inRange 0 0 ⟨"a", 0, "task", some ""⟩ = true) ∧
    ((aggregate [⟨"a", 0, "task", some ""⟩] 0 0 [⟨"c1", "", "#111111"⟩] []).1.map
      (fun b => (b.name, b.value)) = [("Uncategorized", 15)]) := by
  refine ⟨by decide, by decide, by decide⟩

/-- C4 (amended). Each in-range entry contributes exactly 15 minutes, routed
to the bucket named by its category when that name is non-empty and
currently configured and to Uncategorized otherwise: `totalMinutes` is 15
times the number of in-range entries, every bucket holds 15 minutes per
entry routed to it, every output bucket's percentage is its minutes over
`totalMinutes` (times 100), and the Work/Uncategorized example yields
45 min / 60 % and 30 min / 40 % of 75 total minutes. -/
theorem aggregate_minutes_spec (logs : List LogEntry) (rangeStart rangeEnd : Int)
    (categories : List Category) (categoryColors : List (String × String)) :
    ((aggregate logs rangeStart rangeEnd categories categoryColors).2 =
      15 * (logs.filter (inRange rangeStart rangeEnd)).length) ∧
    (∀ n g, getKey n (aggFold (logs.filter (inRange rangeStart rangeEnd)) categories).1 =
        some g →
      g.mins = 15 * ((logs.filter (inRange rangeStart rangeEnd)).filter
        (fun e => decide (specRouteName categories e = n))).length) ∧
    (∀ b ∈ (aggregate logs rangeStart rangeEnd categories categoryColors).1,
      0 < (aggregate logs rangeStart rangeEnd categories categoryColors).2 ∧
      b.percentage = ((b.value : ℚ) /
        (((aggregate logs rangeStart rangeEnd categories categoryColors).2 : Nat) : ℚ)) * 100) ∧
    (((aggregate [⟨"a", 0, "w", some "Work"⟩, ⟨"b", 900000, "w", some "Work"⟩,
        ⟨"c", 1800000, "w", some "Work"⟩, ⟨"d", 2700000, "u", none⟩,
        ⟨"e", 3600000, "v", none⟩] 0 86399999 defaultCategories []).1.map
      (fun b => (b.name, b.value, b.percentage))) =
      [("Work", 45, 60), ("Uncategorized", 30, 40)] ∧
      (aggregate [⟨"a", 0, "w", some "Work"⟩, ⟨"b", 900000, "w", some "Work"⟩,
        ⟨"c", 1800000, "w", some "Work"⟩, ⟨"d", 2700000, "u", none⟩,
        ⟨"e", 3600000, "v", none⟩] 0 86399999 defaultCategories []).2 = 75) := by
  refine ⟨aggregate_total logs rangeStart rangeEnd categories categoryColors,
    fun n g hg => ?_, fun b hb => ?_, ?_, by decide⟩
  · rw [aggFold_eq] at hg
    exact aggregate_bucket_mins logs rangeStart rangeEnd categories hg
  · obtain ⟨_, htot, hperc⟩ :=
      aggregate_bucket_facts logs rangeStart rangeEnd categories categoryColors hb
    exact ⟨htot, hperc⟩
  · simp [aggregate, aggFold, initGroups, routeStep, routeTarget, setKey, getKey, hasKey,
      defaultCategories, inRange, sortStable, insertStable, bucketLE, taskLE,
      assignFallbackColors, assignFallbackColorsFrom, defaultColors]
    norm_num

/-- Witness for C4 (amended): the Work bucket of the concrete example holds
45 minutes, 15 per routed entry. -/
theorem aggregate_minutes_spec_witness :
    (getKey "Work" (aggFold ([⟨"a", 0, "w", some "Work"⟩, ⟨"b", 900000, "w", some "Work"⟩,
        ⟨"c", 1800000, "w", some "Work"⟩, ⟨"d", 2700000, "u", none⟩,
        ⟨"e", 3600000, "v", none⟩].filter (inRange 0 86399999)) defaultCategories).1 =
      some ⟨45, [("w", 45)], "#3B82F6"⟩) ∧
    (⟨45, [("w", 45)], "#3B82F6"⟩ : BucketAcc).mins =
      15 * (([⟨"a", 0, "w", some "Work"⟩, ⟨"b", 900000, "w", some "Work"⟩,
        ⟨"c", 1800000, "w", some "Work"⟩, ⟨"d", 2700000, "u", none⟩,
        ⟨"e", 3600000, "v", none⟩].filter (inRange 0 86399999)).filter
        (fun e => decide (specRouteName defaultCategories e = "Work"))).length :=
  ⟨by decide,
   (aggregate_minutes_spec [⟨"a", 0, "w", some "Work"⟩, ⟨"b", 900000, "w", some "Work"⟩,
      ⟨"c", 1800000, "w", some "Work"⟩, ⟨"d", 2700000, "u", none⟩,
      ⟨"e", 3600000, "v", none⟩] 0 86399999 defaultCategories []).2.1 "Work"
      ⟨45, [("w", 45)], "#3B82F6"⟩ (by decide)⟩

/-- C8 counterexample. One Work entry plus two untagged entries produce the
output [Work: 15 min, Uncategorized: 30 min]: the adjacent pair violates the
claimed descending-by-minutes order, because the source pins Uncategorized to
the last position regardless of its minutes. -/
theorem aggregate_sort_counterexample :
    ((aggregate [⟨"a", 0, "t", some "Work"⟩, ⟨"b", 900000, "u", none⟩,
        ⟨"c", 1800000, "v", none⟩] 0 86399999 defaultCategories []).1.map
      (fun b => (b.name, b.value)) = [("Work", 15), ("Uncategorized", 30)]) ∧
    ¬(30 ≤ 15) :=
  ⟨by decide, by decide⟩

/-- C8 (amended). The aggregator's output contains no zero-minute bucket
(and is empty when `totalMinutes` is 0), each bucket's percentage is its
minutes over `totalMinutes` (times 100), and the buckets are ordered by the
source comparator: every bucket placed before another is not Uncategorized
and has at least as many minutes unless the later one is Uncategorized —
equivalently, minutes are descending among the other buckets and a bucket
named Uncategorized can only occupy the final position, regardless of its
minutes. -/
theorem aggregate_output_spec (logs : List LogEntry) (rangeStart rangeEnd : Int)
    (categories : List Category) (categoryColors : List (String × String)) :
    (∀ b ∈ (aggregate logs rangeStart rangeEnd categories categoryColors).1,
      0 < b.value) ∧
    ((aggregate logs rangeStart rangeEnd categories categoryColors).2 = 0 →
      (aggregate logs rangeStart rangeEnd categories categoryColors).1 = []) ∧
    (∀ b ∈ (aggregate logs rangeStart rangeEnd categories categoryColors).1,
      b.percentage = ((b.value : ℚ) /
        (((aggregate logs rangeStart rangeEnd categories categoryColors).2 : Nat) : ℚ)) * 100) ∧
    ((aggregate logs rangeStart rangeEnd categories categoryColors).1.Pairwise
      (fun a b => a.name ≠ "Uncategorized" ∧
        (b.name = "Uncategorized" ∨ b.value ≤ a.value))) ∧
    (∀ i, ∀ hi : i < (aggregate logs rangeStart rangeEnd categories categoryColors).1.length,
      ((aggregate logs rangeStart rangeEnd categories categoryColors).1.get
        ⟨i, hi⟩).name = "Uncategorized" →
      i + 1 = (aggregate logs rangeStart rangeEnd categories categoryColors).1.length) := by
  have hpw : (aggregate logs rangeStart rangeEnd categories categoryColors).1.Pairwise
      (fun a b => a.name ≠ "Uncategorized" ∧
        (b.name = "Uncategorized" ∨ b.value ≤ a.value)) := by
    simp only [aggregate, aggFold_eq, assignFallbackColors]
    refine pairwise_assign_sort _ ?_
    rw [List.map_map]
    have hnd : (((logs.filter (inRange rangeStart rangeEnd)).foldl routeStep
        (initGroups categories)).map Prod.fst).Nodup :=
      nodupKeys_foldl_routeStep _ _ (nodupKeys_initGroups categories)
    have hsub : ((((logs.filter (inRange rangeStart rangeEnd)).foldl routeStep
        (initGroups categories)).filter (fun p => decide (0 < p.2.mins))).map
        Prod.fst).Sublist
        (((logs.filter (inRange rangeStart rangeEnd)).foldl routeStep
          (initGroups categories)).map Prod.fst) :=
      (List.filter_sublist _).map Prod.fst
    exact hsub.nodup hnd
  refine ⟨fun b hb =>
      (aggregate_bucket_facts logs rangeStart rangeEnd categories categoryColors hb).1,
    aggregate_empty_of_total_zero logs rangeStart rangeEnd categories categoryColors,
    fun b hb =>
      (aggregate_bucket_facts logs rangeStart rangeEnd categories categoryColors hb).2.2,
    hpw, ?_⟩
  intro i hi hname
  by_contra hne
  have hlt : i + 1 <
      (aggregate logs rangeStart rangeEnd categories categoryColors).1.length := by
    omega
  have hpair := (List.pairwise_iff_get.mp hpw) ⟨i, hi⟩ ⟨i + 1, hlt⟩
    (Fin.mk_lt_mk.mpr (Nat.lt_succ_self i))
  exact hpair.1 hname

/-- Witness for C8 (amended): with no entries the total is 0 and the output
bucket list is empty, and in the one-Work-two-untagged example the
Uncategorized bucket sits at the final index of the two-bucket output. -/
theorem aggregate_output_spec_witness :
    ((aggregate [] 0 0 defaultCategories []).2 = 0) ∧
    ((aggregate [] 0 0 defaultCategories []).1 = []) ∧
    (1 + 1 = (aggregate [⟨"a", 0, "t", some "Work"⟩, ⟨"b", 900000, "u", none⟩,
      ⟨"c", 1800000, "v", none⟩] 0 86399999 defaultCategories []).1.length) :=
  ⟨by decide,
   (aggregate_output_spec [] 0 0 defaultCategories []).2.1 (by decide),
   (aggregate_output_spec [⟨"a", 0, "t", some "Work"⟩, ⟨"b", 900000, "u", none⟩,
      ⟨"c", 1800000, "v", none⟩] 0 86399999 defaultCategories []).2.2.2.2 1
      (by decide) (by decide)⟩

/-! ## The import path and the slot-alignment invariant -/

/-- C10 failing input. The import line "10:07 reading" matches the parser's
`HH:mm` pattern with minutes 07, is parsed to the timestamp 10:07 of the base
day, and is stored unchanged by the save-per-line import flow: the stored
entry's minute-of-hour is 7, which is not a 15-minute slot start
(minute ∈ {0, 15, 30, 45}), violating the data-model invariant the claim
states. -/
theorem importText_slot_misalignment :
    parseImportText "10:07 reading" 0 =
      [⟨10 * msPerHour + 7 * msPerMinute, "reading", none⟩] ∧
    ((10 * msPerHour + 7 * msPerMinute) / msPerMinute) % 60 = 7 ∧
    (7 : Int) ∉ ([0, 15, 30, 45] : List Int) ∧
    (⟨"id1", 10 * msPerHour + 7 * msPerMinute, "reading", none⟩ : LogEntry) ∈
      importText "10:07 reading" 0 ["id1"] [] := by
  refine ⟨by decide, by decide, by decide, by decide⟩

end FlowState
